import Mathlib

set_option maxRecDepth 100000

/-!
Shallow embedding of the e-voting research prototype
(`evoting_system/blockchain.py`, `evoting_system/crypto_primitives.py`,
`evoting_system/pipeline.py`, `attacks/simulate_attacks.py`).

Conventions:
* SHA-256 digests, JSON serialization, the HMAC/Dilithium signing fallback
  and the nullifier digest are abstracted as function parameters (`H`,
  `Ser`, `Sign`, `NullH`, `Chash`): the Python code only uses them as
  deterministic black boxes.
* Python's unbounded proof-of-work loop is modelled with explicit fuel,
  returning `Option`/an explicit error when the fuel runs out.
* Machine integers do not occur: Python integers are arbitrary precision,
  so `Nat` is the faithful carrier.
-/

/-- JSON-style values stored in a block payload (the payload dicts built by
`pipeline.cast_vote` and the genesis payload only ever hold strings,
booleans, and the two-field zkp object). -/
inductive Value where
  | str (s : String)
  | nat (n : Nat)
  | bool (b : Bool)
  | zkpObj (commitment response : Nat)
deriving DecidableEq, Repr

/-- A payload is an insertion-ordered string-keyed dictionary. -/
abbrev Payload := List (String × Value)

deriving instance DecidableEq for Except

/-- Python dict lookup (first matching key; keys are unique in practice). -/
def alookup {α : Type} : List (String × α) → String → Option α
  | [], _ => none
  | (k', v) :: rest, k => if k' = k then some v else alookup rest k

/-- Python dict update: overwrite in place if the key exists, else append. -/
def aset {α : Type} : List (String × α) → String → α → List (String × α)
  | [], k, v => [(k, v)]
  | (k', v') :: rest, k, v =>
    if k' = k then (k, v) :: rest else (k', v') :: aset rest k v

/-- Membership test on a list of strings (Python `in` on a set of strings). -/
def memB : List String → String → Bool
  | [], _ => false
  | x :: xs, y => if x = y then true else memB xs y

/-- The data that `Block.compute_hash` serializes: all block fields except
the digest itself (blockchain.py lines 22-31). -/
structure BlockData where
  index : Nat
  previous_hash : String
  timestamp : Nat
  payload : Payload
  nonce : Nat
deriving DecidableEq, Repr

/-- A block of the vote chain (blockchain.py `Block`). -/
structure Block where
  index : Nat
  previous_hash : String
  timestamp : Nat
  payload : Payload
  nonce : Nat
  hash : String
deriving DecidableEq, Repr

/-- The hashed fields of a block. -/
def Block.data (b : Block) : BlockData :=
  { index := b.index, previous_hash := b.previous_hash, timestamp := b.timestamp,
    payload := b.payload, nonce := b.nonce }

/-- `Block.compute_hash`: digest of the canonical serialization of the block
data, with the digest function `H` abstracting
`sha256(json.dumps(block_data, sort_keys=True))`. -/
def computeHash (H : BlockData → String) (b : Block) : String := H b.data

/-- Build a block the way `Block.__post_init__` does: store the digest of
the field data. -/
def mkBlock (H : BlockData → String) (index : Nat) (previous_hash : String)
    (timestamp : Nat) (payload : Payload) (nonce : Nat) : Block :=
  { index := index, previous_hash := previous_hash, timestamp := timestamp,
    payload := payload, nonce := nonce,
    hash := H { index := index, previous_hash := previous_hash,
                timestamp := timestamp, payload := payload, nonce := nonce } }

/-- Structurally recursive prefix test on character lists. -/
def isPrefixB : List Char → List Char → Bool
  | [], _ => true
  | _ :: _, [] => false
  | c :: cs, x :: xs => if c = x then isPrefixB cs xs else false

/-- Python's `str.startswith(d)` (structural recursion so that concrete
chains evaluate inside the kernel). -/
def strStartsWith (s d : String) : Bool := isPrefixB d.data s.data

/-- The proof-of-work loop of `VoteChain.add_block`: starting from `nonce`,
increment and recompute the digest until it starts with the work-factor
string `d`.  Python loops unboundedly; `fuel` makes the search total. -/
def mineFrom (H : BlockData → String) (d : String) (index : Nat)
    (previous_hash : String) (timestamp : Nat) (payload : Payload) :
    Nat → Nat → Option Block
  | _, 0 => none
  | nonce, fuel + 1 =>
    let b := mkBlock H index previous_hash timestamp payload nonce
    if strStartsWith b.hash d then some b
    else mineFrom H d index previous_hash timestamp payload (nonce + 1) fuel

/-- The ledger (`VoteChain`): a work-factor string and a list of blocks. -/
structure VoteChain where
  difficulty : String
  chain : List Block
deriving DecidableEq, Repr

/-- `VoteChain.__init__`: a fresh chain holding only the genesis block
(index 0, previous hash a string of 64 `'0'` characters, payload
`{"genesis": true}`; the genesis block is not mined). -/
def initChain (H : BlockData → String) (d : String) (timestamp : Nat) : VoteChain :=
  { difficulty := d,
    chain := [mkBlock H 0 (String.mk (List.replicate 64 '0')) timestamp
                [("genesis", Value.bool true)] 0] }

/-- `VoteChain.add_block`: build a block pointing at the current tip
(`previous_hash` = tip's stored hash, `index` = chain length), mine it from
nonce 0, and append it as the new tip. -/
def add_block (H : BlockData → String) (c : VoteChain) (payload : Payload)
    (timestamp fuel : Nat) : Option (VoteChain × Block) :=
  match c.chain.getLast? with
  | none => none
  | some prev =>
    match mineFrom H c.difficulty c.chain.length prev.hash timestamp payload 0 fuel with
    | none => none
    | some b => some ({ c with chain := c.chain ++ [b] }, b)

/-- The per-block checks of `VoteChain.validate_chain` for a non-genesis
block `curr` with predecessor `prev`. -/
def validBlockPair (H : BlockData → String) (d : String) (prev curr : Block) : Bool :=
  curr.previous_hash == prev.hash && computeHash H curr == curr.hash &&
    strStartsWith curr.hash d

/-- Walk the chain from a fixed predecessor, checking every consecutive
pair as `validate_chain` does. -/
def validateFrom (H : BlockData → String) (d : String) : Block → List Block → Bool
  | _, [] => true
  | prev, curr :: rest =>
    validBlockPair H d prev curr && validateFrom H d curr rest

/-- Chain validity of a block list (the genesis block's own digest and
work factor are never checked: the loop in blockchain.py starts at i = 1). -/
def chainOK (H : BlockData → String) (d : String) : List Block → Bool
  | [] => true
  | b :: rest => validateFrom H d b rest

/-- `VoteChain.validate_chain`. -/
def validate_chain (H : BlockData → String) (c : VoteChain) : Bool :=
  chainOK H c.difficulty c.chain

/-- Decidable no-duplicates check on a list of payload values. -/
def listNodupB : List Value → Bool
  | [] => true
  | x :: xs => if x ∈ xs then false else listNodupB xs

/-- All `nullifier` fields stored in the chain's payloads. -/
def collectNullifiers (c : VoteChain) : List Value :=
  c.chain.filterMap (fun b => alookup b.payload "nullifier")

/-- Modelled from the spec: `VoteChain.validate_unique_nullifiers` is called
by `system.py`, `scripts/run_pipeline.py` and `attacks/simulate_attacks.py`
but its definition is missing from `blockchain.py`.  Spec section 4.1:
"independently scans every payload's `nullifier` field and asserts no
duplicates exist, regardless of chain validity." -/
def validate_unique_nullifiers (c : VoteChain) : Bool :=
  listNodupB (collectNullifiers c)

namespace ToyZKP

/-- The fixed group modulus (crypto_primitives.py line 17). -/
def p : Nat := 2147483647

/-- The fixed generator (crypto_primitives.py line 18). -/
def g : Nat := 5

/-- A Schnorr-style proof (`ZKProof`). -/
structure ZKProof where
  commitment : Nat
  response : Nat
deriving DecidableEq, Repr

/-- `ToyZKP.public_from_secret`: `pow(g, secret, p)`. -/
def public_from_secret (secret : Nat) : Nat := g ^ secret % p

/-- `ToyZKP._challenge` with the SHA-256 digest abstracted as `Chash`
(the code reduces `int(sha256(...).hexdigest(), 16)` modulo `p - 1`). -/
def challenge (Chash : Nat → Nat → String → Nat) (commitment public : Nat)
    (context : String) : Nat :=
  Chash commitment public context % (p - 1)

/-- `ToyZKP.prove_knowledge` with the prover's random draw `r` explicit. -/
def prove_knowledge (Chash : Nat → Nat → String → Nat) (secret r : Nat)
    (context : String) : ZKProof :=
  let t := g ^ r % p
  let y := public_from_secret secret
  let c := challenge Chash t y context
  { commitment := t, response := (r + c * secret) % (p - 1) }

/-- `ToyZKP.verify_knowledge`. -/
def verify_knowledge (Chash : Nat → Nat → String → Nat) (public : Nat)
    (proof : ZKProof) (context : String) : Bool :=
  let c := challenge Chash proof.commitment public context
  g ^ proof.response % p == (proof.commitment * (public ^ c % p)) % p

end ToyZKP

namespace ToyFHE

/-- `ToyFHE.keygen` draws `secrets.randbits(31)` and forces the low bit:
the modulus produced from the raw draw `m` is `m ||| 1`. -/
def keygen_n (m : Nat) : Nat := m ||| 1

/-- `ToyFHE.encrypt` with the random draw `r` (from `[0, n)`) explicit:
`(value + r * n) % (n * n)`. -/
def encrypt (n value r : Nat) : Nat := (value + r * n) % (n * n)

/-- `ToyFHE.add`: `(c1 + c2) % (n * n)`. -/
def add (n c1 c2 : Nat) : Nat := (c1 + c2) % (n * n)

/-- `ToyFHE.decrypt`: `ciphertext % n`. -/
def decrypt (n ciphertext : Nat) : Nat := ciphertext % n

/-- Left fold of homomorphic addition over a nonempty list of ciphertexts:
`add(add(...add(c1, c2)..., ck))`. -/
def foldAdd (n : Nat) : List Nat → Nat
  | [] => 0
  | c :: cs => cs.foldl (add n) c

end ToyFHE

/-- The spec's reference formula for toy encryption:
`encrypt(value) = (value + r·n) mod n²`. -/
def encrypt_specFormula (n value r : Nat) : Nat := (value + r * n) % n ^ 2

/-- The spec's reference formula for homomorphic addition:
`add(c1, c2) = (c1 + c2) mod n²`. -/
def add_specFormula (n c1 c2 : Nat) : Nat := (c1 + c2) % n ^ 2

/-- The spec's reference formula for decryption: `decrypt(c) = c mod n`. -/
def decrypt_specFormula (n c : Nat) : Nat := c % n

/-- Last block of `b :: l`. -/
def lastB (b : Block) (l : List Block) : Block := l.getLastD b

/-- The link check between an optional predecessor and a block: vacuous for
the head of the chain (whose own digest `validate_chain` never checks). -/
def linkOK (H : BlockData → String) (d : String) : Option Block → Block → Bool
  | none, _ => true
  | some pb, b => validBlockPair H d pb b

/-- Run a sequence of `add_block` calls (payload, timestamp, mining fuel). -/
def appendAll (H : BlockData → String) : VoteChain → List (Payload × Nat × Nat) → Option VoteChain
  | c, [] => some c
  | c, (payload, ts, fuel) :: rest =>
    match add_block H c payload ts fuel with
    | none => none
    | some (c', _) => appendAll H c' rest

/-- Re-mine a suffix of the chain in order, as the `node_compromise_attack`
does for a single block: each block keeps its index, timestamp and payload,
its `previous_hash` is re-pointed at the freshly mined predecessor, and its
nonce is searched again from 0. -/
def remineFrom (H : BlockData → String) (d : String) : String → List Block → Nat → Option (List Block)
  | _, [], _ => some []
  | ph, b :: rest, fuel =>
    match mineFrom H d b.index ph b.timestamp b.payload 0 fuel with
    | none => none
    | some b' =>
      match remineFrom H d b'.hash rest fuel with
      | none => none
      | some rest' => some (b' :: rest')

/-- The hash the first re-mined block must point at: the stored hash of the
last untouched block, or the original `previous_hash` when re-mining starts
at the genesis block. -/
def prevHashFor (pre : List Block) (b : Block) : String :=
  match pre.getLast? with
  | none => b.previous_hash
  | some q => q.hash

/-- The receipt returned by `cast_vote` (pipeline.py `CastVoteReceipt`). -/
structure CastVoteReceipt where
  voter_id : String
  candidate : String
  block_hash : String
  zkp_valid : Bool
  nullifier : String
deriving DecidableEq, Repr

/-- The failure modes of `cast_vote`.  `notEnrolled` models the `KeyError`
raised for an unknown voter (or missing secret), `doubleVote` and
`proofInvalid` the two `RuntimeError`s; `miningExhausted` is the fuel
artifact standing for Python's unbounded proof-of-work loop not returning. -/
inductive CastError where
  | notEnrolled
  | doubleVote
  | proofInvalid
  | miningExhausted
deriving DecidableEq, Repr

/-- The per-cast random draws and ambient quantities of one `cast_vote`
call: the prover's nonce `r_zkp`, the encryption randomness `r_enc`, the
hex cast nonce, the KEM ciphertext hex, the block timestamp and the mining
fuel. -/
structure CastRand where
  r_zkp : Nat
  r_enc : Nat
  cast_nonce : String
  kem_ct : String
  timestamp : Nat
  fuel : Nat
deriving DecidableEq, Repr

/-- The deterministic black boxes the pipeline consumes: the block digest
`H`, the Fiat-Shamir digest `Chash`, the nullifier digest `NullH`, the
canonical JSON serializer `Ser` and the signature provider `Sign`
(`sign` keyed with the pipeline's private key; the HMAC fallback verifies a
signature by recomputing it). -/
structure Env where
  H : BlockData → String
  Chash : Nat → Nat → String → Nat
  NullH : String → String
  Ser : Payload → String
  Sign : String → String

/-- The orchestrator state (`EVotingPipeline` fields used by the core):
enrolled templates, the secret registry, the running encrypted tally, the
used-nullifier cache, the chain, and the toy-FHE modulus `n`. -/
structure Pipeline where
  election_id : String
  chain : VoteChain
  templates : List (String × String)
  secret_registry : List (String × Nat)
  encrypted_tally : List (String × Nat)
  used_nullifiers : List String
  n : Nat
deriving DecidableEq, Repr

/-- `EVotingPipeline._build_nullifier`:
`sha256(f"{election_id}|{voter_id}|{template_id}")`. -/
def build_nullifier (env : Env) (election_id voter_id template_id : String) : String :=
  env.NullH (election_id ++ "|" ++ voter_id ++ "|" ++ template_id)

/-- The tally mutation of `cast_vote` (pipeline.py lines 67-72): encrypt a
unit vote and either store it (first vote for the candidate) or add it
homomorphically onto the prior ciphertext. -/
def tallyUpdate (n : Nat) (tally : List (String × Nat)) (candidate : String)
    (r_enc : Nat) : List (String × Nat) :=
  let encrypted_vote := ToyFHE.encrypt n 1 r_enc
  match alookup tally candidate with
  | none => aset tally candidate encrypted_vote
  | some prior => aset tally candidate (ToyFHE.add n prior encrypted_vote)

/-- The payload dict built by `cast_vote` before signing (pipeline.py lines
74-83), in insertion order. -/
def buildPayloadCore (election_id voter_id candidate nullifier cast_nonce : String)
    (proof : ToyZKP.ZKProof) (template_id : String) : Payload :=
  [("election_id", Value.str election_id),
   ("voter_id", Value.str voter_id),
   ("candidate", Value.str candidate),
   ("nullifier", Value.str nullifier),
   ("nonce", Value.str cast_nonce),
   ("zkp", Value.zkpObj proof.commitment proof.response),
   ("template_id", Value.str template_id),
   ("he_backend", Value.str "toy-fhe")]

/-- The per-cast proof context string
`f"{election_id}:{voter_id}:{candidate}:{nullifier}:{cast_nonce}"`. -/
def castCtx (st : Pipeline) (voter_id candidate nullifier : String)
    (rnd : CastRand) : String :=
  st.election_id ++ ":" ++ voter_id ++ ":" ++ candidate ++ ":" ++
    nullifier ++ ":" ++ rnd.cast_nonce

/-- The full payload committed by `cast_vote`: the core payload is signed
over its canonical serialization, then the signature and the KEM ciphertext
are inserted as two further fields (pipeline.py lines 84-88). -/
def castPayload (env : Env) (st : Pipeline) (voter_id candidate nullifier : String)
    (rnd : CastRand) (secret : Nat) (template_id : String) : Payload :=
  let proof := ToyZKP.prove_knowledge env.Chash secret rnd.r_zkp
    (castCtx st voter_id candidate nullifier rnd)
  let core := buildPayloadCore st.election_id voter_id candidate nullifier
    rnd.cast_nonce proof template_id
  core ++
    [("dilithium_signature", Value.str (env.Sign (env.Ser core))),
     ("kyber_kem_ct", Value.str rnd.kem_ct)]

/-- `EVotingPipeline.cast_vote`.  Returns the post-call state together with
the receipt or the error; the returned state reflects exactly the mutations
performed before the corresponding Python `raise` (the three guard checks
precede every mutation). -/
def cast_vote (env : Env) (st : Pipeline) (voter_id candidate : String)
    (rnd : CastRand) : Pipeline × Except CastError CastVoteReceipt :=
  match alookup st.templates voter_id with
  | none => (st, Except.error CastError.notEnrolled)
  | some template_id =>
    let nullifier := build_nullifier env st.election_id voter_id template_id
    if memB st.used_nullifiers nullifier then (st, Except.error CastError.doubleVote)
    else
      match alookup st.secret_registry voter_id with
      | none => (st, Except.error CastError.notEnrolled)
      | some secret =>
        let pub := ToyZKP.public_from_secret secret
        let ctx := castCtx st voter_id candidate nullifier rnd
        let proof := ToyZKP.prove_knowledge env.Chash secret rnd.r_zkp ctx
        let zkp_valid := ToyZKP.verify_knowledge env.Chash pub proof ctx
        if !zkp_valid then (st, Except.error CastError.proofInvalid)
        else
          let newTally := tallyUpdate st.n st.encrypted_tally candidate rnd.r_enc
          match add_block env.H st.chain
            (castPayload env st voter_id candidate nullifier rnd secret template_id)
            rnd.timestamp rnd.fuel with
          | none => ({ st with encrypted_tally := newTally },
                     Except.error CastError.miningExhausted)
          | some (chain', b) =>
            ({ st with encrypted_tally := newTally, chain := chain',
                       used_nullifiers := nullifier :: st.used_nullifiers },
             Except.ok { voter_id := voter_id, candidate := candidate,
                         block_hash := b.hash, zkp_valid := zkp_valid,
                         nullifier := nullifier })

/-- `EVotingPipeline.decrypt_results`: decrypt each candidate's running
ciphertext. -/
def decrypt_results (st : Pipeline) : List (String × Nat) :=
  st.encrypted_tally.map (fun kv => (kv.1, ToyFHE.decrypt st.n kv.2))

/-- One cast request of a vote-cast sequence. -/
structure CastReq where
  voter_id : String
  candidate : String
  rnd : CastRand
deriving DecidableEq, Repr

/-- Run a sequence of `cast_vote` calls, logging per call the candidate and
the outcome (`none` = success). -/
def runLog (env : Env) : Pipeline → List CastReq → Pipeline × List (String × Option CastError)
  | st, [] => (st, [])
  | st, req :: rest =>
    let out := cast_vote env st req.voter_id req.candidate req.rnd
    let res := runLog env out.1 rest
    (res.1,
     (req.candidate, match out.2 with | Except.ok _ => none | Except.error e => some e) :: res.2)

/-- Number of successful casts for candidate `k` in a log. -/
def succCount (log : List (String × Option CastError)) (k : String) : Nat :=
  (log.filter (fun e => e.1 == k && e.2.isNone)).length

/-- Number of successful casts in a log. -/
def totalSucc (log : List (String × Option CastError)) : Nat :=
  (log.filter (fun e => e.2.isNone)).length

/-- Remove the two post-signing fields from a committed payload. -/
def stripSigFields (payload : Payload) : Payload :=
  payload.filter (fun kv =>
    !(kv.1 == "dilithium_signature") && !(kv.1 == "kyber_kem_ct"))

/-- `DilithiumSignature.verify` in the HMAC fallback: recompute the
signature of the message with the private key and compare. -/
def dilithiumVerify (Sign : String → String) (message sig : String) : Bool :=
  Sign message == sig

/-- Executable stand-in digest used by the concrete witnesses: a readable
encoding of the hashed data (injective enough at the witnessed inputs,
which is checked there by evaluation). -/
def encodeValue : Value → String
  | Value.str s => "s:" ++ s
  | Value.nat n => "n:" ++ toString n
  | Value.bool b => "b:" ++ toString b
  | Value.zkpObj c r => "z:" ++ toString c ++ "," ++ toString r

/-- Concrete serializer for witnesses. -/
def encodePayload (payload : Payload) : String :=
  payload.foldl (fun acc kv => acc ++ kv.1 ++ "=" ++ encodeValue kv.2 ++ ";") ""

/-- Concrete block digest for witnesses. -/
def demoHash (d : BlockData) : String :=
  "(" ++ toString d.index ++ "|" ++ d.previous_hash ++ "|" ++ toString d.timestamp ++
    "|" ++ encodePayload d.payload ++ "|" ++ toString d.nonce ++ ")"

/-- Placeholder block for total projections in witnesses. -/
def dummyBlock : Block :=
  { index := 0, previous_hash := "", timestamp := 0, payload := [], nonce := 0, hash := "" }

/-- Placeholder receipt for total projections in witnesses. -/
def dummyReceipt : CastVoteReceipt :=
  { voter_id := "", candidate := "", block_hash := "", zkp_valid := false, nullifier := "" }

/-- Concrete environment for witnesses (work factor handled per chain). -/
def demoEnv : Env :=
  { H := demoHash, Chash := fun _ _ _ => 0, NullH := fun s => s,
    Ser := encodePayload, Sign := fun s => "sig[" ++ s ++ "]" }

/-- Concrete append requests for the chain witnesses. -/
def demoReqs : List (Payload × Nat × Nat) :=
  [([("candidate", Value.str "A"), ("nullifier", Value.str "n1")], 1, 1),
   ([("candidate", Value.str "B"), ("nullifier", Value.str "n2")], 2, 1)]

/-- Concrete three-block chain (genesis plus two mined blocks, trivial work
factor so one unit of fuel suffices). -/
def demoChain3 : VoteChain :=
  (appendAll demoHash (initChain demoHash "" 0) demoReqs).getD (initChain demoHash "" 0)

/-- The genesis block of the concrete chain. -/
def dB0 : Block := demoChain3.chain.getD 0 dummyBlock

/-- The middle block of the concrete chain. -/
def dB1 : Block := demoChain3.chain.getD 1 dummyBlock

/-- The tip of the concrete chain. -/
def dB2 : Block := demoChain3.chain.getD 2 dummyBlock

/-- The tampered payload used in the C5 scenarios. -/
def mutPayload : Payload :=
  [("candidate", Value.str "Mallory"), ("nullifier", Value.str "n1")]

/-- The genesis block with a tampered payload and an untouched stored hash. -/
def dB0mut : Block := { dB0 with payload := [("genesis", Value.bool false)] }

/-- The middle block re-mined with the tampered payload. -/
def dB1re : Block :=
  (mineFrom demoHash "" dB1.index dB1.previous_hash dB1.timestamp mutPayload 0 1).getD dummyBlock

/-- The suffix starting at the tampered middle block, re-mined in order. -/
def dRemined : List Block :=
  (remineFrom demoHash "" (prevHashFor [dB0] dB1)
    ({ dB1 with payload := mutPayload } :: [dB2]) 1).getD []

/-- The chain after replaying the tip payload through `add_block`. -/
def dReplay : VoteChain :=
  ((add_block demoHash demoChain3 dB2.payload 3 1).map Prod.fst).getD demoChain3

/-- The block appended by the replay. -/
def dReplayB : Block :=
  ((add_block demoHash demoChain3 dB2.payload 3 1).map Prod.snd).getD dummyBlock

/-- Concrete enrolled pipeline for the orchestrator witnesses. -/
def demoPipeline : Pipeline :=
  { election_id := "e", chain := initChain demoHash "" 0,
    templates := [("A", "tA"), ("B", "tB"), ("C", "tC")],
    secret_registry := [("A", 1), ("B", 1), ("C", 1)],
    encrypted_tally := [], used_nullifiers := [], n := 5 }

/-- Concrete per-cast randomness. -/
def demoRand (k : Nat) : CastRand :=
  { r_zkp := 1, r_enc := 0, cast_nonce := toString k, kem_ct := "kem", timestamp := k, fuel := 1 }

/-- The three cast requests of the end-to-end example. -/
def demoCastReqs : List CastReq :=
  [{ voter_id := "A", candidate := "Alice", rnd := demoRand 1 },
   { voter_id := "B", candidate := "Bob", rnd := demoRand 2 },
   { voter_id := "C", candidate := "Alice", rnd := demoRand 3 }]

/-- The concrete three-vote election of the end-to-end example. -/
def demoElection : Pipeline × List (String × Option CastError) :=
  runLog demoEnv demoPipeline demoCastReqs

/-- A concrete (degenerate) challenge hash exhibiting challenge collisions. -/
def Chash0 : Nat → Nat → String → Nat := fun _ _ _ => 0

/-- The counting invariant tying a running encrypted tally to the per-
candidate success counts: absent candidates have count 0, present
ciphertexts decrypt (mod n) to the count, which is then positive. -/
def TallyInv (n : Nat) (tally : List (String × Nat)) (cnt : String → Nat) : Prop :=
  ∀ k, (alookup tally k = none → cnt k = 0) ∧
       (∀ cph, alookup tally k = some cph → cph % n = cnt k % n ∧ 1 ≤ cnt k)

/-- The first concrete cast (used by the double-vote and payload witnesses). -/
def demoCast1 : Pipeline × Except CastError CastVoteReceipt :=
  cast_vote demoEnv demoPipeline "A" "Alice" (demoRand 1)

/-- The receipt of the first concrete cast. -/
def demoRec1 : CastVoteReceipt :=
  match demoCast1.2 with
  | Except.ok r => r
  | Except.error _ => dummyReceipt

section Lemmas

theorem p_prime : Nat.Prime ToyZKP.p := by
  have h := lucas_lehmer_sufficiency 31 (by norm_num) (by norm_num)
  have hm : mersenne 31 = ToyZKP.p := by norm_num [mersenne, ToyZKP.p]
  rwa [hm] at h

instance : Fact (Nat.Prime ToyZKP.p) := ⟨p_prime⟩

theorem g_pow_p_sub_one : (ToyZKP.g : ZMod ToyZKP.p) ^ (ToyZKP.p - 1) = 1 := by
  apply ZMod.pow_card_sub_one_eq_one
  decide

/-- Transfer `% p` equalities to `ZMod p`. -/
theorem mod_p_eq_of_cast {a b : Nat} (h : (a : ZMod ToyZKP.p) = (b : ZMod ToyZKP.p)) :
    a % ToyZKP.p = b % ToyZKP.p := by
  have ha := ZMod.val_natCast (n := ToyZKP.p) a
  have hb := ZMod.val_natCast (n := ToyZKP.p) b
  rw [← ha, ← hb, h]

theorem mod_p_cast_iff (a b : Nat) :
    a % ToyZKP.p = b % ToyZKP.p ↔ (a : ZMod ToyZKP.p) = (b : ZMod ToyZKP.p) := by
  constructor
  · intro h
    have h2 := congrArg (fun x : Nat => (x : ZMod ToyZKP.p)) h
    simpa [ZMod.natCast_mod] using h2
  · exact mod_p_eq_of_cast

/-- Core Schnorr completeness: the honestly generated proof always passes
verification, for every abstract challenge hash, secret, prover randomness
and context. -/
theorem verify_prove_true (Chash : Nat → Nat → String → Nat) (secret r : Nat)
    (ctx : String) :
    ToyZKP.verify_knowledge Chash (ToyZKP.public_from_secret secret)
      (ToyZKP.prove_knowledge Chash secret r ctx) ctx = true := by
  unfold ToyZKP.verify_knowledge ToyZKP.prove_knowledge ToyZKP.public_from_secret
  simp only [beq_iff_eq]
  set c := ToyZKP.challenge Chash (ToyZKP.g ^ r % ToyZKP.p)
      (ToyZKP.g ^ secret % ToyZKP.p) ctx with hc
  apply mod_p_eq_of_cast
  push_cast
  rw [ZMod.natCast_mod ((ToyZKP.g ^ secret % ToyZKP.p : Nat) ^ c) ToyZKP.p]
  push_cast
  rw [ZMod.natCast_mod (ToyZKP.g ^ secret) ToyZKP.p]
  rw [ZMod.natCast_mod (ToyZKP.g ^ r) ToyZKP.p]
  push_cast
  rw [← pow_eq_pow_mod (r + c * secret) g_pow_p_sub_one]
  ring

theorem lastB_cons (q a : Block) (l : List Block) : lastB q (a :: l) = lastB a l :=
  List.getLastD_cons q a l

theorem lastB_mem : ∀ (l : List Block) (q : Block), lastB q l ∈ q :: l := by
  intro l
  induction l with
  | nil =>
    intro q
    show q ∈ [q]
    simp
  | cons a l ih =>
    intro q
    rw [lastB_cons]
    have := ih a
    simp only [List.mem_cons] at this ⊢
    tauto

theorem getLast?_cons_eq : ∀ (l : List Block) (q : Block),
    (q :: l).getLast? = some (lastB q l) := by
  intro l
  induction l with
  | nil =>
    intro q
    rw [List.getLast?_singleton]
    rfl
  | cons a l ih =>
    intro q
    rw [List.getLast?_cons_cons, ih a, lastB_cons]

theorem mem_of_getLast? {l : List Block} {a : Block} (h : l.getLast? = some a) :
    a ∈ l := by
  match l with
  | [] => simp at h
  | q :: l' =>
    rw [getLast?_cons_eq] at h
    have hh : lastB q l' = a := by injection h
    rw [← hh]
    exact lastB_mem l' q

/-- Everything `mineFrom` guarantees about a successfully mined block: the
fields are the requested ones, the stored digest is the recomputed digest,
it satisfies the work factor, and every smaller nonce from the search start
fails the work factor (the search increments by 1 from `n0`). -/
theorem mineFrom_spec (H : BlockData → String) (d : String) (index : Nat)
    (previous_hash : String) (timestamp : Nat) (payload : Payload) :
    ∀ fuel n0 b, mineFrom H d index previous_hash timestamp payload n0 fuel = some b →
      b.index = index ∧ b.previous_hash = previous_hash ∧ b.timestamp = timestamp ∧
      b.payload = payload ∧ b.hash = H b.data ∧ strStartsWith b.hash d = true ∧
      n0 ≤ b.nonce ∧
      (∀ k, n0 ≤ k → k < b.nonce →
        (strStartsWith (mkBlock H index previous_hash timestamp payload k).hash d) = false) := by
  intro fuel
  induction fuel with
  | zero => intro n0 b h; simp [mineFrom] at h
  | succ fuel ih =>
    intro n0 b h
    rw [mineFrom] at h
    by_cases hs : strStartsWith (mkBlock H index previous_hash timestamp payload n0).hash d = true
    · rw [if_pos hs] at h
      have hb : mkBlock H index previous_hash timestamp payload n0 = b := by injection h
      subst hb
      refine ⟨rfl, rfl, rfl, rfl, rfl, hs, Nat.le_refl _, ?_⟩
      intro k hk1 hk2
      simp [mkBlock] at hk1 hk2
      omega
    · rw [if_neg hs] at h
      have h' := ih (n0 + 1) b h
      obtain ⟨h1, h2, h3, h4, h5, h6, h7, h8⟩ := h'
      refine ⟨h1, h2, h3, h4, h5, h6, by omega, ?_⟩
      intro k hk1 hk2
      by_cases hk : k = n0
      · subst hk
        simpa using hs
      · exact h8 k (by omega) hk2

theorem validateFrom_append (H : BlockData → String) (d : String) :
    ∀ (xs ys : List Block) (b0 : Block),
      validateFrom H d b0 (xs ++ ys) =
        (validateFrom H d b0 xs && validateFrom H d (lastB b0 xs) ys) := by
  intro xs
  induction xs with
  | nil =>
    intro ys b0
    simp [validateFrom, lastB]
  | cons x xs ih =>
    intro ys b0
    show (validBlockPair H d b0 x && validateFrom H d x (xs ++ ys)) =
      ((validBlockPair H d b0 x && validateFrom H d x xs) &&
        validateFrom H d (lastB b0 (x :: xs)) ys)
    rw [lastB_cons, ih ys x, Bool.and_assoc]

theorem chainOK_split (H : BlockData → String) (d : String)
    (l1 : List Block) (b : Block) (l2 : List Block) :
    chainOK H d (l1 ++ b :: l2) =
      (chainOK H d l1 && linkOK H d l1.getLast? b && validateFrom H d b l2) := by
  match l1 with
  | [] => simp [chainOK, linkOK]
  | q :: l1' =>
    rw [getLast?_cons_eq]
    show validateFrom H d q (l1' ++ b :: l2) = _
    rw [validateFrom_append H d l1' (b :: l2) q]
    show _ = (validateFrom H d q l1' && linkOK H d (some (lastB q l1')) b &&
      validateFrom H d b l2)
    simp only [validateFrom, linkOK, Bool.and_assoc]

/-- A freshly mined suffix is internally valid from any predecessor whose
stored hash it was pointed at. -/
theorem remineFrom_validateFrom (H : BlockData → String) (d : String) :
    ∀ (l : List Block) (ph : String) (fuel : Nat) (l' : List Block),
      remineFrom H d ph l fuel = some l' →
      ∀ pb : Block, pb.hash = ph → validateFrom H d pb l' = true := by
  intro l
  induction l with
  | nil =>
    intro ph fuel l' h pb _
    have : l' = [] := by simpa [remineFrom] using h.symm
    subst this
    rfl
  | cons b rest ih =>
    intro ph fuel l' h pb hpb
    rw [remineFrom] at h
    cases hm : mineFrom H d b.index ph b.timestamp b.payload 0 fuel with
    | none => rw [hm] at h; exact absurd h (by simp)
    | some b' =>
      simp only [hm] at h
      cases hr : remineFrom H d b'.hash rest fuel with
      | none => rw [hr] at h; exact absurd h (by simp)
      | some rest' =>
        simp only [hr, Option.some.injEq] at h
        subst h
        obtain ⟨_, h2, _, _, h5, h6, _, _⟩ :=
          mineFrom_spec H d b.index ph b.timestamp b.payload fuel 0 b' hm
        have hpair : validBlockPair H d pb b' = true := by
          simp only [validBlockPair, Bool.and_eq_true, beq_iff_eq]
          exact ⟨⟨by rw [h2, hpb], h5.symm⟩, h6⟩
        simp only [validateFrom, hpair, Bool.true_and]
        exact ih b'.hash fuel rest' hr b' rfl

theorem remineFrom_chainOK (H : BlockData → String) (d : String) (ph : String)
    (l : List Block) (fuel : Nat) (l' : List Block)
    (h : remineFrom H d ph l fuel = some l') : chainOK H d l' = true := by
  cases l with
  | nil =>
    have : l' = [] := by simpa [remineFrom] using h.symm
    subst this
    rfl
  | cons b rest =>
    rw [remineFrom] at h
    cases hm : mineFrom H d b.index ph b.timestamp b.payload 0 fuel with
    | none => rw [hm] at h; exact absurd h (by simp)
    | some b' =>
      simp only [hm] at h
      cases hr : remineFrom H d b'.hash rest fuel with
      | none => rw [hr] at h; exact absurd h (by simp)
      | some rest' =>
        simp only [hr, Option.some.injEq] at h
        subst h
        show validateFrom H d b' rest' = true
        exact remineFrom_validateFrom H d rest b'.hash fuel rest' hr b' rfl

theorem remineFrom_head (H : BlockData → String) (d : String) (ph : String)
    (b : Block) (rest : List Block) (fuel : Nat) (l' : List Block)
    (h : remineFrom H d ph (b :: rest) fuel = some l') :
    ∃ b1 t, l' = b1 :: t ∧ b1.previous_hash = ph ∧ b1.hash = H b1.data ∧
      strStartsWith b1.hash d = true := by
  rw [remineFrom] at h
  cases hm : mineFrom H d b.index ph b.timestamp b.payload 0 fuel with
  | none => rw [hm] at h; exact absurd h (by simp)
  | some b' =>
    simp only [hm] at h
    cases hr : remineFrom H d b'.hash rest fuel with
    | none => rw [hr] at h; exact absurd h (by simp)
    | some rest' =>
      simp only [hr, Option.some.injEq] at h
      obtain ⟨_, h2, _, _, h5, h6, _, _⟩ :=
        mineFrom_spec H d b.index ph b.timestamp b.payload fuel 0 b' hm
      exact ⟨b', rest', h.symm, h2, h5, h6⟩

/-- Everything `add_block` guarantees on success. -/
theorem add_block_spec (H : BlockData → String) (c : VoteChain) (payload : Payload)
    (ts fuel : Nat) (c' : VoteChain) (b : Block)
    (h : add_block H c payload ts fuel = some (c', b)) :
    ∃ tip, c.chain.getLast? = some tip ∧ c'.difficulty = c.difficulty ∧
      c'.chain = c.chain ++ [b] ∧ b.index = c.chain.length ∧
      b.previous_hash = tip.hash ∧ b.timestamp = ts ∧ b.payload = payload ∧
      b.hash = H b.data ∧ strStartsWith b.hash c.difficulty = true ∧
      (∀ k, k < b.nonce →
        (strStartsWith (mkBlock H c.chain.length tip.hash ts payload k).hash c.difficulty) = false) := by
  rw [add_block] at h
  cases hl : c.chain.getLast? with
  | none => rw [hl] at h; exact absurd h (by simp)
  | some tip =>
    simp only [hl] at h
    cases hm : mineFrom H c.difficulty c.chain.length tip.hash ts payload 0 fuel with
    | none => rw [hm] at h; exact absurd h (by simp)
    | some b0 =>
      simp only [hm, Option.some.injEq, Prod.mk.injEq] at h
      obtain ⟨hc', hb⟩ := h
      subst hb
      obtain ⟨h1, h2, h3, h4, h5, h6, _, h8⟩ :=
        mineFrom_spec H c.difficulty c.chain.length tip.hash ts payload fuel 0 b0 hm
      refine ⟨tip, rfl, ?_, ?_, h1, h2, h3, h4, h5, h6, ?_⟩
      · rw [← hc']
      · rw [← hc']
      · intro k hk
        exact h8 k (Nat.zero_le k) hk

/-- `add_block` preserves chain validity. -/
theorem validate_chain_add_block (H : BlockData → String) (c : VoteChain)
    (payload : Payload) (ts fuel : Nat) (c' : VoteChain) (b : Block)
    (hv : validate_chain H c = true)
    (h : add_block H c payload ts fuel = some (c', b)) :
    validate_chain H c' = true := by
  obtain ⟨tip, hl, hd, hc', _, h2, _, _, h5, h6, _⟩ := add_block_spec H c payload ts fuel c' b h
  rw [validate_chain, hd, hc', chainOK_split, hl]
  have hpair : validBlockPair H c.difficulty tip b = true := by
    simp only [validBlockPair, Bool.and_eq_true, beq_iff_eq]
    exact ⟨⟨h2, h5.symm⟩, h6⟩
  rw [validate_chain] at hv
  simp [linkOK, hpair, hv, validateFrom]

theorem appendAll_validate (H : BlockData → String) :
    ∀ (reqs : List (Payload × Nat × Nat)) (c c' : VoteChain),
      validate_chain H c = true → appendAll H c reqs = some c' →
      validate_chain H c' = true := by
  intro reqs
  induction reqs with
  | nil =>
    intro c c' hv h
    have : c = c' := by simpa [appendAll] using h
    rwa [← this]
  | cons req rest ih =>
    intro c c' hv h
    obtain ⟨payload, ts, fuel⟩ := req
    rw [appendAll] at h
    cases ha : add_block H c payload ts fuel with
    | none => rw [ha] at h; exact absurd h (by simp)
    | some out =>
      simp only [ha] at h
      exact ih out.1 c' (validate_chain_add_block H c payload ts fuel out.1 out.2 hv ha) h

theorem initChain_validate (H : BlockData → String) (d : String) (ts : Nat) :
    validate_chain H (initChain H d ts) = true := rfl

theorem listNodupB_iff : ∀ l : List Value, listNodupB l = true ↔ l.Nodup := by
  intro l
  induction l with
  | nil => simp [listNodupB]
  | cons x xs ih =>
    rw [listNodupB, List.nodup_cons]
    by_cases hx : x ∈ xs
    · simp [hx]
    · simp [hx, ih]

theorem listNodupB_append_dup (v : Value) :
    ∀ xs : List Value, v ∈ xs → listNodupB (xs ++ [v]) = false := by
  intro xs
  induction xs with
  | nil => intro h; simp at h
  | cons x xs ih =>
    intro h
    rw [List.cons_append, listNodupB]
    rcases List.mem_cons.mp h with h1 | h2
    · have hx : x ∈ xs ++ [v] := by
        subst h1
        simp
      rw [if_pos hx]
    · by_cases hx : x ∈ xs ++ [v]
      · rw [if_pos hx]
      · rw [if_neg hx]
        exact ih h2

theorem lor_one_eq (m : Nat) : m ||| 1 = 2 * (m / 2) + 1 := by
  conv_lhs => rw [← Nat.bit_decomp m]
  have h1 : (1 : Nat) = Nat.bit true 0 := rfl
  rw [h1, Nat.lor_bit]
  simp [Nat.bit, Nat.div2_val]

theorem encrypt_modEq (n v r : Nat) : ToyFHE.encrypt n v r ≡ v [MOD n] := by
  unfold ToyFHE.encrypt
  calc (v + r * n) % (n * n) ≡ v + r * n [MOD n] :=
        (Nat.mod_modEq (v + r * n) (n * n)).of_dvd (dvd_mul_left n n)
    _ ≡ v + 0 [MOD n] := Nat.ModEq.add_left v (Nat.modEq_zero_iff_dvd.mpr (dvd_mul_left n r))
    _ = v := by omega

theorem add_modEq (n c1 c2 : Nat) : ToyFHE.add n c1 c2 ≡ c1 + c2 [MOD n] :=
  (Nat.mod_modEq (c1 + c2) (n * n)).of_dvd (dvd_mul_left n n)

theorem foldl_add_modEq (n : Nat) :
    ∀ (cs : List Nat) (c : Nat), cs.foldl (ToyFHE.add n) c ≡ c + cs.sum [MOD n] := by
  intro cs
  induction cs with
  | nil =>
    intro c
    simp only [List.foldl_nil, List.sum_nil, Nat.add_zero]
    exact Nat.ModEq.refl c
  | cons c2 cs ih =>
    intro c
    have h1 : (cs.foldl (ToyFHE.add n) (ToyFHE.add n c c2)) ≡ ToyFHE.add n c c2 + cs.sum [MOD n] :=
      ih (ToyFHE.add n c c2)
    have h2 : ToyFHE.add n c c2 + cs.sum ≡ (c + c2) + cs.sum [MOD n] :=
      (add_modEq n c c2).add_right cs.sum
    calc (c2 :: cs).foldl (ToyFHE.add n) c = cs.foldl (ToyFHE.add n) (ToyFHE.add n c c2) := rfl
      _ ≡ (c + c2) + cs.sum [MOD n] := h1.trans h2
      _ = c + (c2 :: cs).sum := by simp [Nat.add_assoc]

theorem sum_map_encrypt_modEq (n : Nat) :
    ∀ vs : List (Nat × Nat),
      ((vs.map fun pr => ToyFHE.encrypt n pr.1 pr.2).sum) ≡ (vs.map Prod.fst).sum [MOD n] := by
  intro vs
  induction vs with
  | nil => rfl
  | cons v vs ih =>
    simp only [List.map_cons, List.sum_cons]
    exact (encrypt_modEq n v.1 v.2).add ih

theorem foldAdd_encrypt_modEq (n : Nat) (vs : List (Nat × Nat)) (hne : vs ≠ []) :
    ToyFHE.foldAdd n (vs.map fun pr => ToyFHE.encrypt n pr.1 pr.2) ≡
      (vs.map Prod.fst).sum [MOD n] := by
  match vs, hne with
  | (v, r) :: rest, _ =>
    calc ToyFHE.foldAdd n (((v, r) :: rest).map fun pr => ToyFHE.encrypt n pr.1 pr.2)
        = (rest.map fun pr => ToyFHE.encrypt n pr.1 pr.2).foldl (ToyFHE.add n)
            (ToyFHE.encrypt n v r) := rfl
      _ ≡ ToyFHE.encrypt n v r + (rest.map fun pr => ToyFHE.encrypt n pr.1 pr.2).sum [MOD n] :=
          foldl_add_modEq n _ _
      _ ≡ v + (rest.map Prod.fst).sum [MOD n] :=
          (encrypt_modEq n v r).add (sum_map_encrypt_modEq n rest)
      _ = (((v, r) :: rest).map Prod.fst).sum := by simp

theorem cast_vote_eq_double (env : Env) (st : Pipeline) (v cand : String)
    (rnd : CastRand) (tid : String)
    (ht : alookup st.templates v = some tid)
    (hm : memB st.used_nullifiers (build_nullifier env st.election_id v tid) = true) :
    cast_vote env st v cand rnd = (st, Except.error CastError.doubleVote) := by
  simp [cast_vote, ht, hm]

/-- Exhaustive case analysis of `cast_vote`: the call either rejects with
`notEnrolled` or `doubleVote` leaving the state untouched, or succeeds
(appending one block, updating the tally and marking the nullifier), or
runs out of mining fuel after the tally update.  The `proofInvalid` branch
never fires, by completeness of the proof system. -/
theorem cast_vote_split (env : Env) (st : Pipeline) (v cand : String) (rnd : CastRand) :
    cast_vote env st v cand rnd = (st, Except.error CastError.notEnrolled) ∨
    cast_vote env st v cand rnd = (st, Except.error CastError.doubleVote) ∨
    (∃ (tid : String) (secret : Nat) (chain' : VoteChain) (b : Block),
       alookup st.templates v = some tid ∧
       alookup st.secret_registry v = some secret ∧
       memB st.used_nullifiers (build_nullifier env st.election_id v tid) = false ∧
       add_block env.H st.chain
         (castPayload env st v cand (build_nullifier env st.election_id v tid) rnd secret tid)
         rnd.timestamp rnd.fuel = some (chain', b) ∧
       chain'.chain = st.chain.chain ++ [b] ∧
       cast_vote env st v cand rnd =
         ({ st with encrypted_tally := tallyUpdate st.n st.encrypted_tally cand rnd.r_enc,
                    chain := chain',
                    used_nullifiers := build_nullifier env st.election_id v tid ::
                      st.used_nullifiers },
          Except.ok { voter_id := v, candidate := cand, block_hash := b.hash,
                      zkp_valid := true,
                      nullifier := build_nullifier env st.election_id v tid })) ∨
    cast_vote env st v cand rnd =
      ({ st with encrypted_tally := tallyUpdate st.n st.encrypted_tally cand rnd.r_enc },
       Except.error CastError.miningExhausted) := by
  cases ht : alookup st.templates v with
  | none =>
    left
    simp [cast_vote, ht]
  | some tid =>
    by_cases hm : memB st.used_nullifiers (build_nullifier env st.election_id v tid) = true
    · right; left
      exact cast_vote_eq_double env st v cand rnd tid ht hm
    · have hm' : memB st.used_nullifiers (build_nullifier env st.election_id v tid) = false :=
        Bool.eq_false_iff.mpr hm
      cases hs : alookup st.secret_registry v with
      | none =>
        left
        simp [cast_vote, ht, hm', hs]
      | some secret =>
        have hver := verify_prove_true env.Chash secret rnd.r_zkp
          (castCtx st v cand (build_nullifier env st.election_id v tid) rnd)
        cases hb : add_block env.H st.chain
            (castPayload env st v cand (build_nullifier env st.election_id v tid) rnd secret tid)
            rnd.timestamp rnd.fuel with
        | none =>
          right; right; right
          simp [cast_vote, ht, hm', hs, hver, hb]
        | some pr =>
          right; right; left
          obtain ⟨chain', b⟩ := pr
          obtain ⟨tip, _, _, hcc, _⟩ :=
            add_block_spec env.H st.chain _ rnd.timestamp rnd.fuel chain' b hb
          refine ⟨tid, secret, chain', b, rfl, rfl, hm', hb, hcc, ?_⟩
          simp [cast_vote, ht, hm', hs, hver, hb]

theorem alookup_aset_self {α : Type} :
    ∀ (l : List (String × α)) (k : String) (v : α), alookup (aset l k v) k = some v := by
  intro l
  induction l with
  | nil => intro k v; simp [aset, alookup]
  | cons kv rest ih =>
    intro k v
    obtain ⟨k', v'⟩ := kv
    rw [aset]
    by_cases hk : k' = k
    · rw [if_pos hk]
      simp [alookup]
    · rw [if_neg hk]
      rw [alookup, if_neg hk]
      exact ih k v

theorem alookup_aset_ne {α : Type} :
    ∀ (l : List (String × α)) (k k' : String) (v : α), k ≠ k' →
      alookup (aset l k v) k' = alookup l k' := by
  intro l
  induction l with
  | nil =>
    intro k k' v hk
    simp [aset, alookup, hk]
  | cons kv rest ih =>
    intro k k' v hk
    obtain ⟨k0, v0⟩ := kv
    rw [aset]
    by_cases h0 : k0 = k
    · rw [if_pos h0]
      subst h0
      rw [alookup, alookup, if_neg hk, if_neg hk]
    · rw [if_neg h0]
      rw [alookup, alookup]
      by_cases h1 : k0 = k'
      · rw [if_pos h1, if_pos h1]
      · rw [if_neg h1, if_neg h1]
        exact ih k k' v hk

theorem alookup_map_snd {α β : Type} (f : α → β) :
    ∀ (l : List (String × α)) (k : String),
      alookup (l.map (fun kv => (kv.1, f kv.2))) k = (alookup l k).map f := by
  intro l
  induction l with
  | nil => intro k; rfl
  | cons kv rest ih =>
    intro k
    obtain ⟨k', v⟩ := kv
    rw [List.map_cons]
    show alookup ((k', f v) :: rest.map (fun kv => (kv.1, f kv.2))) k = _
    rw [alookup, alookup]
    by_cases hk : k' = k
    · rw [if_pos hk, if_pos hk]
      rfl
    · rw [if_neg hk, if_neg hk]
      exact ih k

theorem TallyInv_congr (n : Nat) (t : List (String × Nat)) (f g : String → Nat)
    (h : TallyInv n t f) (hfg : ∀ k, f k = g k) : TallyInv n t g := by
  intro k
  obtain ⟨h1, h2⟩ := h k
  constructor
  · intro hn
    rw [← hfg k]
    exact h1 hn
  · intro cph hc
    rw [← hfg k]
    exact h2 cph hc

theorem tallyUpdate_inv (n : Nat) (tally : List (String × Nat)) (cnt : String → Nat)
    (cand : String) (r : Nat) (h : TallyInv n tally cnt) :
    TallyInv n (tallyUpdate n tally cand r)
      (fun k => if k = cand then cnt k + 1 else cnt k) := by
  intro k
  by_cases hk : k = cand
  · subst hk
    rw [tallyUpdate]
    cases hl : alookup tally k with
    | none =>
      refine ⟨fun hcontra => ?_, fun cph hcph => ?_⟩
      · rw [alookup_aset_self] at hcontra
        cases hcontra
      · rw [alookup_aset_self] at hcph
        have hcc : ToyFHE.encrypt n 1 r = cph := by injection hcph
        have h0 : cnt k = 0 := (h k).1 hl
        constructor
        · show cph % n = (if k = k then cnt k + 1 else cnt k) % n
          rw [if_pos rfl, h0, ← hcc]
          exact encrypt_modEq n 1 r
        · show 1 ≤ (if k = k then cnt k + 1 else cnt k)
          rw [if_pos rfl]
          omega
    | some prior =>
      refine ⟨fun hcontra => ?_, fun cph hcph => ?_⟩
      · rw [alookup_aset_self] at hcontra
        cases hcontra
      · rw [alookup_aset_self] at hcph
        have hcc : ToyFHE.add n prior (ToyFHE.encrypt n 1 r) = cph := by injection hcph
        obtain ⟨hp, _⟩ := (h k).2 prior hl
        constructor
        · show cph % n = (if k = k then cnt k + 1 else cnt k) % n
          rw [if_pos rfl, ← hcc]
          calc ToyFHE.add n prior (ToyFHE.encrypt n 1 r) % n
              = (prior + ToyFHE.encrypt n 1 r) % n := add_modEq n prior (ToyFHE.encrypt n 1 r)
            _ = (prior + 1) % n := Nat.ModEq.add_left prior (encrypt_modEq n 1 r)
            _ = (cnt k + 1) % n := Nat.ModEq.add_right 1 hp
        · show 1 ≤ (if k = k then cnt k + 1 else cnt k)
          rw [if_pos rfl]
          omega
  · have hne : cand ≠ k := fun hh => hk hh.symm
    have hsame : alookup (tallyUpdate n tally cand r) k = alookup tally k := by
      rw [tallyUpdate]
      cases alookup tally cand with
      | none => exact alookup_aset_ne tally cand k _ hne
      | some prior => exact alookup_aset_ne tally cand k _ hne
    refine ⟨fun hn => ?_, fun cph hc => ?_⟩
    · show (if k = cand then cnt k + 1 else cnt k) = 0
      rw [if_neg hk]
      rw [hsame] at hn
      exact (h k).1 hn
    · rw [hsame] at hc
      obtain ⟨hc1, hc2⟩ := (h k).2 cph hc
      constructor
      · show cph % n = (if k = cand then cnt k + 1 else cnt k) % n
        rw [if_neg hk]
        exact hc1
      · show 1 ≤ (if k = cand then cnt k + 1 else cnt k)
        rw [if_neg hk]
        exact hc2

theorem succCount_cons_some (c : String) (e : CastError)
    (l : List (String × Option CastError)) (k : String) :
    succCount ((c, some e) :: l) k = succCount l k := by
  simp [succCount, List.filter]

theorem succCount_cons_none (c : String) (l : List (String × Option CastError)) (k : String) :
    succCount ((c, none) :: l) k = (if c = k then succCount l k + 1 else succCount l k) := by
  by_cases hc : c = k
  · subst hc
    simp [succCount, List.filter]
  · have : (c == k) = false := beq_eq_false_iff_ne.mpr hc
    simp [succCount, List.filter, this, hc]

theorem totalSucc_cons_some (c : String) (e : CastError)
    (l : List (String × Option CastError)) :
    totalSucc ((c, some e) :: l) = totalSucc l := by
  simp [totalSucc, List.filter]

theorem totalSucc_cons_none (c : String) (l : List (String × Option CastError)) :
    totalSucc ((c, none) :: l) = totalSucc l + 1 := by
  simp [totalSucc, List.filter]

/-- The counting invariant carried through a run of casts. -/
theorem runLog_inv (env : Env) :
    ∀ (reqs : List CastReq) (st : Pipeline) (cnt : String → Nat)
      (st' : Pipeline) (log : List (String × Option CastError)),
      runLog env st reqs = (st', log) →
      (∀ e ∈ log, e.2 ≠ some CastError.miningExhausted) →
      TallyInv st.n st.encrypted_tally cnt →
      st'.n = st.n ∧
      st'.chain.chain.length = st.chain.chain.length + totalSucc log ∧
      TallyInv st.n st'.encrypted_tally (fun k => cnt k + succCount log k) := by
  intro reqs
  induction reqs with
  | nil =>
    intro st cnt st' log hrun _ hinv
    rw [runLog] at hrun
    obtain ⟨h1, h2⟩ := Prod.mk.injEq _ _ _ _ ▸ hrun
    subst h1
    subst h2
    refine ⟨rfl, by simp [totalSucc], ?_⟩
    exact TallyInv_congr _ _ _ _ hinv (fun k => by simp [succCount])
  | cons req rest ih =>
    intro st cnt st' log hrun hlog hinv
    rw [runLog] at hrun
    rcases cast_vote_split env st req.voter_id req.candidate req.rnd with
      h1 | h1 | ⟨tid, secret, chain', b, _, _, _, _, hcc, h1⟩ | h1
    all_goals rw [h1] at hrun
    · 
      cases hres : runLog env st rest with
      | mk st2 log2 =>
        rw [hres] at hrun
        obtain ⟨hst, hlg⟩ := Prod.mk.injEq _ _ _ _ ▸ hrun
        subst hst
        subst hlg
        have hlog2 : ∀ e ∈ log2, e.2 ≠ some CastError.miningExhausted := by
          intro e he
          exact hlog e (List.mem_cons_of_mem _ he)
        obtain ⟨hn, hlen, hti⟩ := ih st cnt st2 log2 hres hlog2 hinv
        refine ⟨hn, ?_, ?_⟩
        · rw [hlen, totalSucc_cons_some]
        · refine TallyInv_congr _ _ _ _ hti (fun k => ?_)
          rw [succCount_cons_some]
    · 
      cases hres : runLog env st rest with
      | mk st2 log2 =>
        rw [hres] at hrun
        obtain ⟨hst, hlg⟩ := Prod.mk.injEq _ _ _ _ ▸ hrun
        subst hst
        subst hlg
        have hlog2 : ∀ e ∈ log2, e.2 ≠ some CastError.miningExhausted := by
          intro e he
          exact hlog e (List.mem_cons_of_mem _ he)
        obtain ⟨hn, hlen, hti⟩ := ih st cnt st2 log2 hres hlog2 hinv
        refine ⟨hn, ?_, ?_⟩
        · rw [hlen, totalSucc_cons_some]
        · refine TallyInv_congr _ _ _ _ hti (fun k => ?_)
          rw [succCount_cons_some]
    · 
      cases hres : runLog env
          { st with encrypted_tally := tallyUpdate st.n st.encrypted_tally req.candidate req.rnd.r_enc,
                    chain := chain',
                    used_nullifiers := build_nullifier env st.election_id req.voter_id tid ::
                      st.used_nullifiers } rest with
      | mk st2 log2 =>
        rw [hres] at hrun
        obtain ⟨hst, hlg⟩ := Prod.mk.injEq _ _ _ _ ▸ hrun
        subst hst
        subst hlg
        have hlog2 : ∀ e ∈ log2, e.2 ≠ some CastError.miningExhausted := by
          intro e he
          exact hlog e (List.mem_cons_of_mem _ he)
        have hinv' : TallyInv st.n
            (tallyUpdate st.n st.encrypted_tally req.candidate req.rnd.r_enc)
            (fun k => if k = req.candidate then cnt k + 1 else cnt k) :=
          tallyUpdate_inv st.n st.encrypted_tally cnt req.candidate req.rnd.r_enc hinv
        obtain ⟨hn, hlen, hti⟩ := ih _ _ st2 log2 hres hlog2 hinv'
        refine ⟨hn, ?_, ?_⟩
        · rw [hlen, totalSucc_cons_none]
          have hc1 : chain'.chain.length = st.chain.chain.length + 1 := by
            rw [hcc, List.length_append, List.length_singleton]
          show chain'.chain.length + totalSucc log2 =
            st.chain.chain.length + (totalSucc log2 + 1)
          omega
        · refine TallyInv_congr _ _ _ _ hti (fun k => ?_)
          show (if k = req.candidate then cnt k + 1 else cnt k) + succCount log2 k =
            cnt k + succCount ((req.candidate, none) :: log2) k
          rw [succCount_cons_none]
          by_cases hk : k = req.candidate
          · rw [if_pos hk, if_pos hk.symm]
            omega
          · rw [if_neg hk, if_neg (fun hh => hk hh.symm)]
    · 
      exfalso
      cases hres : runLog env
          { st with encrypted_tally := tallyUpdate st.n st.encrypted_tally req.candidate req.rnd.r_enc } rest with
      | mk st2 log2 =>
        rw [hres] at hrun
        obtain ⟨_, hlg⟩ := Prod.mk.injEq _ _ _ _ ▸ hrun
        have hmem : (req.candidate, some CastError.miningExhausted) ∈ log := by
          rw [← hlg]
          exact List.mem_cons_self _ _
        exact hlog _ hmem rfl

end Lemmas

/-- C2: Completeness of the zero-knowledge authorization protocol: for every
secret in `[1, p-2]`, every prover randomness in `[1, p-2]` and every
context, `verify_knowledge (public_from_secret s) (prove_knowledge s ctx) ctx`
returns true, for every challenge-hash function; consequently the
`proofInvalid` error branch of `cast_vote` is unreachable. -/
theorem C2_zkp_completeness :
    (∀ (Chash : Nat → Nat → String → Nat) (secret r : Nat) (ctx : String),
       1 ≤ secret → secret ≤ ToyZKP.p - 2 → 1 ≤ r → r ≤ ToyZKP.p - 2 →
       ToyZKP.verify_knowledge Chash (ToyZKP.public_from_secret secret)
         (ToyZKP.prove_knowledge Chash secret r ctx) ctx = true) ∧
    (∀ (env : Env) (st : Pipeline) (v cand : String) (rnd : CastRand),
       (cast_vote env st v cand rnd).2 ≠ Except.error CastError.proofInvalid) := by
  constructor
  · intro Chash secret r ctx _ _ _ _
    exact verify_prove_true Chash secret r ctx
  · intro env st v cand rnd
    rcases cast_vote_split env st v cand rnd with
      h1 | h1 | ⟨_, _, _, _, _, _, _, _, _, h1⟩ | h1 <;> rw [h1] <;> simp

/-- Witness for C2 at concrete inputs. -/
theorem C2_zkp_completeness_witness :
    ToyZKP.verify_knowledge (fun _ _ _ => 0) (ToyZKP.public_from_secret 1)
      (ToyZKP.prove_knowledge (fun _ _ _ => 0) 1 1 "election:ctx") "election:ctx" = true :=
  C2_zkp_completeness.1 (fun _ _ _ => 0) 1 1 "election:ctx"
    (by decide) (by decide) (by decide) (by decide)

/-- C3: Additive homomorphism of the toy tally scheme: for every modulus
produced by `keygen` (from any 31-bit draw `m`) and all plaintexts whose sum
stays below the modulus, with arbitrary encryption randomness,
`decrypt (add (encrypt a) (encrypt b)) = a + b`; and folding `add` over any
nonempty list of encrypted values decrypts to the sum of the values. -/
theorem C3_homomorphism (m : Nat) (hm : m < 2 ^ 31) :
    (∀ a b r1 r2 : Nat, a + b < ToyFHE.keygen_n m →
       ToyFHE.decrypt (ToyFHE.keygen_n m)
         (ToyFHE.add (ToyFHE.keygen_n m)
           (ToyFHE.encrypt (ToyFHE.keygen_n m) a r1)
           (ToyFHE.encrypt (ToyFHE.keygen_n m) b r2)) = a + b) ∧
    (∀ vs : List (Nat × Nat), vs ≠ [] →
       (vs.map Prod.fst).sum < ToyFHE.keygen_n m →
       ToyFHE.decrypt (ToyFHE.keygen_n m)
         (ToyFHE.foldAdd (ToyFHE.keygen_n m)
           (vs.map fun pr => ToyFHE.encrypt (ToyFHE.keygen_n m) pr.1 pr.2)) =
         (vs.map Prod.fst).sum) := by
  set n := ToyFHE.keygen_n m with hn
  have general : ∀ vs : List (Nat × Nat), vs ≠ [] →
      (vs.map Prod.fst).sum < n →
      ToyFHE.decrypt n
        (ToyFHE.foldAdd n (vs.map fun pr => ToyFHE.encrypt n pr.1 pr.2)) =
        (vs.map Prod.fst).sum := by
    intro vs hne hsum
    have h := foldAdd_encrypt_modEq n vs hne
    unfold ToyFHE.decrypt
    calc ToyFHE.foldAdd n (vs.map fun pr => ToyFHE.encrypt n pr.1 pr.2) % n
        = (vs.map Prod.fst).sum % n := h
      _ = (vs.map Prod.fst).sum := Nat.mod_eq_of_lt hsum
  refine ⟨?_, general⟩
  intro a b r1 r2 hab
  have h := general [(a, r1), (b, r2)] (by simp) (by simpa using hab)
  simpa [ToyFHE.foldAdd] using h

/-- Witness for C3 at a concrete key and concrete plaintexts. -/
theorem C3_homomorphism_witness :
    ToyFHE.decrypt (ToyFHE.keygen_n 6)
      (ToyFHE.add (ToyFHE.keygen_n 6)
        (ToyFHE.encrypt (ToyFHE.keygen_n 6) 3 1)
        (ToyFHE.encrypt (ToyFHE.keygen_n 6) 2 4)) = 3 + 2 :=
  (C3_homomorphism 6 (by decide)).1 3 2 1 4 (by decide)

/-- C8: The toy homomorphic scheme matches the spec's reference semantics
exactly: `keygen` produces an odd modulus below `2^31` from every 31-bit
draw, and `encrypt`, `add`, `decrypt` compute the spec's formulas
`(value + r·n) mod n²`, `(c1 + c2) mod n²`, `c mod n` bit for bit. -/
theorem C8_toy_reference_semantics :
    (∀ m : Nat, m < 2 ^ 31 →
       ToyFHE.keygen_n m % 2 = 1 ∧ ToyFHE.keygen_n m < 2 ^ 31) ∧
    (∀ n v r : Nat, ToyFHE.encrypt n v r = encrypt_specFormula n v r) ∧
    (∀ n c1 c2 : Nat, ToyFHE.add n c1 c2 = add_specFormula n c1 c2) ∧
    (∀ n c : Nat, ToyFHE.decrypt n c = decrypt_specFormula n c) := by
  refine ⟨?_, ?_, ?_, ?_⟩
  · intro m hm
    unfold ToyFHE.keygen_n
    rw [lor_one_eq]
    omega
  · intro n v r
    unfold ToyFHE.encrypt encrypt_specFormula
    rw [Nat.pow_two]
  · intro n c1 c2
    unfold ToyFHE.add add_specFormula
    rw [Nat.pow_two]
  · intro n c
    rfl

/-- Witness for C8 at a concrete key draw. -/
theorem C8_toy_reference_semantics_witness :
    ToyFHE.keygen_n 6 % 2 = 1 ∧ ToyFHE.keygen_n 6 < 2 ^ 31 :=
  C8_toy_reference_semantics.1 6 (by decide)

/-- C1: `validate_unique_nullifiers` returns whether no nullifier value
occurs in more than one block's payload, independently of chain validity;
in particular, appending a copy of a committed payload whose `nullifier`
field is already on the chain (the replay attack, bypassing the
orchestrator) makes it return false. -/
theorem C1_nullifier_audit :
    (∀ c : VoteChain, validate_unique_nullifiers c = true ↔ (collectNullifiers c).Nodup) ∧
    (∀ (H : BlockData → String) (c : VoteChain) (tip : Block) (v : Value)
       (payload : Payload) (ts fuel : Nat) (c' : VoteChain) (b : Block),
       c.chain.getLast? = some tip →
       alookup tip.payload "nullifier" = some v →
       payload = tip.payload →
       add_block H c payload ts fuel = some (c', b) →
       validate_unique_nullifiers c' = false) := by
  constructor
  · intro c
    exact listNodupB_iff (collectNullifiers c)
  · intro H c tip v payload ts fuel c' b hlast hnull hpay hadd
    obtain ⟨tip', hl, _, hc', _, _, _, h4, _, _, _⟩ :=
      add_block_spec H c payload ts fuel c' b hadd
    have htip : tip' = tip := by
      rw [hlast] at hl
      injection hl with h
      exact h.symm
    have hbn : alookup b.payload "nullifier" = some v := by
      rw [h4, hpay]
      exact hnull
    have hmem : v ∈ collectNullifiers c :=
      List.mem_filterMap.mpr ⟨tip, mem_of_getLast? hlast, hnull⟩
    have hcollect : collectNullifiers c' = collectNullifiers c ++ [v] := by
      unfold collectNullifiers
      rw [hc', List.filterMap_append]
      simp [hbn]
    rw [validate_unique_nullifiers, hcollect]
    exact listNodupB_append_dup v (collectNullifiers c) hmem

/-- Witness for C1: replaying the tip payload of the concrete three-block
chain through `add_block` makes the audit fail. -/
theorem C1_nullifier_audit_witness : validate_unique_nullifiers dReplay = false :=
  C1_nullifier_audit.2 demoHash demoChain3 dB2 (Value.str "n2") dB2.payload 3 1
    dReplay dReplayB (by decide) (by decide) (by decide) (by decide)

/-- C7: The chain invariant is established and preserved by `add_block`:
any sequence of successful appends starting from a fresh chain yields a
chain on which `validate_chain` returns true; and each appended block
points at the previous tip, carries the next index, stores its recomputed
digest satisfying the work factor, and its nonce is the least one (from 0)
whose digest satisfies the work factor. -/
theorem C7_append_invariant :
    (∀ (H : BlockData → String) (d : String) (ts0 : Nat)
       (reqs : List (Payload × Nat × Nat)) (c' : VoteChain),
       appendAll H (initChain H d ts0) reqs = some c' →
       validate_chain H c' = true) ∧
    (∀ (H : BlockData → String) (c : VoteChain) (payload : Payload) (ts fuel : Nat)
       (c' : VoteChain) (b : Block) (tip : Block),
       add_block H c payload ts fuel = some (c', b) →
       c.chain.getLast? = some tip →
       c'.chain = c.chain ++ [b] ∧ b.previous_hash = tip.hash ∧
       b.index = c.chain.length ∧ b.hash = H b.data ∧
       strStartsWith b.hash c.difficulty = true ∧
       (∀ k, k < b.nonce →
         (strStartsWith (mkBlock H c.chain.length tip.hash ts payload k).hash c.difficulty) = false)) := by
  constructor
  · intro H d ts0 reqs c' h
    exact appendAll_validate H reqs (initChain H d ts0) c' (initChain_validate H d ts0) h
  · intro H c payload ts fuel c' b tip hadd hlast
    obtain ⟨tip', hl, _, hc', h1, h2, _, _, h5, h6, h7⟩ :=
      add_block_spec H c payload ts fuel c' b hadd
    have htip : tip' = tip := by
      rw [hlast] at hl
      injection hl with h
      exact h.symm
    subst htip
    exact ⟨hc', h2, h1, h5, h6, h7⟩

/-- Witness for C7 on the concrete chain. -/
theorem C7_append_invariant_witness :
    validate_chain demoHash demoChain3 = true ∧
    dReplay.chain = demoChain3.chain ++ [dReplayB] ∧
    dReplayB.previous_hash = dB2.hash := by
  refine ⟨C7_append_invariant.1 demoHash "" 0 demoReqs demoChain3 (by decide), ?_⟩
  have h := C7_append_invariant.2 demoHash demoChain3 dB2.payload 3 1 dReplay dReplayB dB2
    (by decide) (by decide)
  exact ⟨h.1, h.2.1⟩

/-- C5 (amended): in a valid ledger with at least 2 blocks, (1) mutating the
payload of a non-genesis, non-tip block without re-mining (the recomputed
digest differing from the stored hash) makes `validate_chain` return false
— for the genesis block such a mutation goes undetected, since validation
never recomputes the genesis digest; (2) re-mining the mutated block while
leaving its successor untouched still yields false (the forward link
breaks); (3) re-mining the mutated block and every successor in order
restores `validate_chain = true`. -/
theorem C5_tamper_evidence (H : BlockData → String) (c : VoteChain)
    (pre : List Block) (b : Block) (suf : List Block) (p' : Payload)
    (hc : c.chain = pre ++ b :: suf)
    (hv : validate_chain H c = true) :
    (pre ≠ [] → suf ≠ [] →
      H { index := b.index, previous_hash := b.previous_hash,
          timestamp := b.timestamp, payload := p', nonce := b.nonce } ≠ b.hash →
      validate_chain H { c with chain := pre ++ { b with payload := p' } :: suf } = false) ∧
    (∀ (s : Block) (suf' : List Block) (fuel : Nat) (b' : Block), suf = s :: suf' →
      mineFrom H c.difficulty b.index b.previous_hash b.timestamp p' 0 fuel = some b' →
      b'.hash ≠ b.hash →
      validate_chain H { c with chain := pre ++ b' :: s :: suf' } = false) ∧
    (∀ (fuel : Nat) (l' : List Block),
      remineFrom H c.difficulty (prevHashFor pre b)
        ({ b with payload := p' } :: suf) fuel = some l' →
      validate_chain H { c with chain := pre ++ l' } = true) := by
  refine ⟨?_, ?_, ?_⟩
  · intro hpre _ hH
    obtain ⟨qh, pt, hq⟩ := List.exists_cons_of_ne_nil hpre
    subst hq
    rw [validate_chain]
    show chainOK H c.difficulty ((qh :: pt) ++ { b with payload := p' } :: suf) = false
    rw [chainOK_split, getLast?_cons_eq]
    have hB : (computeHash H { b with payload := p' } ==
        ({ b with payload := p' } : Block).hash) = false :=
      beq_eq_false_iff_ne.mpr hH
    have hpair : validBlockPair H c.difficulty (lastB qh pt) { b with payload := p' } = false := by
      simp [validBlockPair, hB]
    simp [linkOK, hpair]
  · intro s suf' fuel b' hsuf hm hne
    subst hsuf
    rw [validate_chain, hc, chainOK_split] at hv
    simp only [Bool.and_eq_true] at hv
    obtain ⟨⟨hpreOK, hlink⟩, hval⟩ := hv
    rw [validateFrom] at hval
    simp only [Bool.and_eq_true] at hval
    obtain ⟨hpair_bs, _⟩ := hval
    have hsprev : s.previous_hash = b.hash := by
      simp only [validBlockPair, Bool.and_eq_true, beq_iff_eq] at hpair_bs
      exact hpair_bs.1.1
    rw [validate_chain]
    show chainOK H c.difficulty (pre ++ b' :: s :: suf') = false
    rw [chainOK_split]
    have hA : (s.previous_hash == b'.hash) = false :=
      beq_eq_false_iff_ne.mpr (by rw [hsprev]; exact fun hh => hne hh.symm)
    have hpair' : validBlockPair H c.difficulty b' s = false := by
      simp [validBlockPair, hA]
    rw [validateFrom]
    simp [hpair']
  · intro fuel l' hr
    rw [validate_chain, hc, chainOK_split] at hv
    simp only [Bool.and_eq_true] at hv
    obtain ⟨⟨hpreOK, _⟩, _⟩ := hv
    obtain ⟨b1, t, hl', hb1prev, hb1hash, hb1pref⟩ :=
      remineFrom_head H c.difficulty (prevHashFor pre b) { b with payload := p' } suf fuel l' hr
    have hok : chainOK H c.difficulty l' = true :=
      remineFrom_chainOK H c.difficulty (prevHashFor pre b)
        ({ b with payload := p' } :: suf) fuel l' hr
    subst hl'
    rw [validate_chain]
    show chainOK H c.difficulty (pre ++ b1 :: t) = true
    rw [chainOK_split]
    have hlink' : linkOK H c.difficulty pre.getLast? b1 = true := by
      cases hgl : pre.getLast? with
      | none => rfl
      | some q =>
        have hph : prevHashFor pre b = q.hash := by simp [prevHashFor, hgl]
        show validBlockPair H c.difficulty q b1 = true
        simp only [validBlockPair, Bool.and_eq_true, beq_iff_eq]
        exact ⟨⟨by rw [hb1prev, hph], hb1hash.symm⟩, hb1pref⟩
    have hvt : validateFrom H c.difficulty b1 t = true := hok
    simp [hpreOK, hlink', hvt]

/-- Counterexample to C5 as stated: in the concrete valid three-block
ledger, mutating a payload field of the genesis block — a non-tip block —
without re-mining (its recomputed digest differs from its stored hash)
leaves `validate_chain` returning true, because validation never recomputes
the genesis block's digest. -/
theorem C5_tamper_evidence_counterexample :
    demoChain3.chain = [dB0, dB1, dB2] ∧
    dB0mut.payload ≠ dB0.payload ∧
    demoHash dB0mut.data ≠ dB0.hash ∧
    validate_chain demoHash demoChain3 = true ∧
    validate_chain demoHash { demoChain3 with chain := [dB0mut, dB1, dB2] } = true := by
  decide

/-- Witness for the amended C5 on the concrete chain: mutating the middle
block is detected; re-mining it without its successor is detected; re-mining
it together with the tip restores validity. -/
theorem C5_tamper_evidence_witness :
    validate_chain demoHash
      { demoChain3 with chain := [dB0] ++ { dB1 with payload := mutPayload } :: [dB2] } = false ∧
    validate_chain demoHash
      { demoChain3 with chain := [dB0] ++ dB1re :: dB2 :: [] } = false ∧
    validate_chain demoHash { demoChain3 with chain := [dB0] ++ dRemined } = true := by
  have hthm := C5_tamper_evidence demoHash demoChain3 [dB0] dB1 [dB2] mutPayload
    (by decide) (by decide)
  exact ⟨hthm.1 (by decide) (by decide) (by decide),
         hthm.2.1 dB2 [] 1 dB1re rfl (by decide) (by decide),
         hthm.2.2 1 dRemined (by decide)⟩

/-- C6: Failure atomicity of `cast_vote`: every guard failure
(`notEnrolled`, `doubleVote`, `proofInvalid`) returns the input state
unchanged (no tally, ledger or nullifier mutation); and after a successful
cast, a second cast by the same voter (same election id and template, hence
the same derived nullifier) fails with `doubleVote` and leaves the state —
tally, ledger and used-nullifier set — exactly as after the first cast. -/
theorem C6_failure_atomicity :
    (∀ (env : Env) (st : Pipeline) (v cand : String) (rnd : CastRand)
       (st' : Pipeline) (e : CastError),
       cast_vote env st v cand rnd = (st', Except.error e) →
       e ≠ CastError.miningExhausted → st' = st) ∧
    (∀ (env : Env) (st : Pipeline) (v cand1 : String) (rnd1 : CastRand)
       (st1 : Pipeline) (rec : CastVoteReceipt),
       cast_vote env st v cand1 rnd1 = (st1, Except.ok rec) →
       ∀ (cand2 : String) (rnd2 : CastRand),
         cast_vote env st1 v cand2 rnd2 = (st1, Except.error CastError.doubleVote)) := by
  constructor
  · intro env st v cand rnd st' e h he
    rcases cast_vote_split env st v cand rnd with h1 | h1 | ⟨_, _, _, _, _, _, _, _, _, h1⟩ | h1 <;>
      rw [h1] at h
    · exact (Prod.mk.injEq _ _ _ _ ▸ h).1.symm
    · exact (Prod.mk.injEq _ _ _ _ ▸ h).1.symm
    · exact absurd (Prod.mk.injEq _ _ _ _ ▸ h).2 (by simp)
    · exact absurd ((Prod.mk.injEq _ _ _ _ ▸ h).2) (by
        intro hh
        injection hh with hh'
        exact he hh'.symm)
  · intro env st v cand1 rnd1 st1 rec h cand2 rnd2
    rcases cast_vote_split env st v cand1 rnd1 with h1 | h1 | hsucc | h1
    · rw [h1] at h
      exact absurd (Prod.mk.injEq _ _ _ _ ▸ h).2 (by simp)
    · rw [h1] at h
      exact absurd (Prod.mk.injEq _ _ _ _ ▸ h).2 (by simp)
    · obtain ⟨tid, secret, chain', b, ht, _, _, _, _, h1⟩ := hsucc
      rw [h1] at h
      have hst1 := (Prod.mk.injEq _ _ _ _ ▸ h).1
      have ht1 : alookup st1.templates v = some tid := by
        rw [← hst1]
        exact ht
      have hm1 : memB st1.used_nullifiers
          (build_nullifier env st1.election_id v tid) = true := by
        rw [← hst1]
        show memB (build_nullifier env st.election_id v tid :: st.used_nullifiers)
          (build_nullifier env st.election_id v tid) = true
        simp [memB]
      exact cast_vote_eq_double env st1 v cand2 rnd2 tid ht1 hm1
    · rw [h1] at h
      exact absurd (Prod.mk.injEq _ _ _ _ ▸ h).2 (by simp)

/-- Witness for C6: the concrete second cast by voter A is rejected as a
double vote and returns the state unchanged. -/
theorem C6_failure_atomicity_witness :
    cast_vote demoEnv demoCast1.1 "A" "Bob" (demoRand 9) =
      (demoCast1.1, Except.error CastError.doubleVote) :=
  C6_failure_atomicity.2 demoEnv demoPipeline "A" "Alice" (demoRand 1)
    demoCast1.1 demoRec1 (by decide) "Bob" (demoRand 9)

/-- C4: End-to-end tally correctness: running any sequence of `cast_vote`
calls from a state with an empty tally (and enough mining fuel throughout),
the ledger grows by exactly the number of successful casts, and
`decrypt_results` assigns to each candidate with at least one successful
vote exactly the number of successful votes cast for it (candidates with no
successful vote have no entry), provided each count stays below the toy
modulus. -/
theorem C4_tally_correctness (env : Env) (st : Pipeline) (reqs : List CastReq)
    (st' : Pipeline) (log : List (String × Option CastError))
    (hrun : runLog env st reqs = (st', log))
    (hmine : ∀ e ∈ log, e.2 ≠ some CastError.miningExhausted)
    (hempty : st.encrypted_tally = []) :
    st'.chain.chain.length = st.chain.chain.length + totalSucc log ∧
    ∀ k, succCount log k < st.n →
      alookup (decrypt_results st') k =
        (if succCount log k = 0 then none else some (succCount log k)) := by
  have hinv0 : TallyInv st.n st.encrypted_tally (fun _ => 0) := by
    intro k
    rw [hempty]
    exact ⟨fun _ => rfl, fun cph hc => by cases hc⟩
  obtain ⟨hn, hlen, hti⟩ := runLog_inv env reqs st (fun _ => 0) st' log hrun hmine hinv0
  have hti' : TallyInv st.n st'.encrypted_tally (fun k => succCount log k) :=
    TallyInv_congr _ _ _ _ hti (fun k => by omega)
  refine ⟨hlen, fun k hk => ?_⟩
  have hdec : alookup (decrypt_results st') k =
      (alookup st'.encrypted_tally k).map (fun c => ToyFHE.decrypt st'.n c) := by
    unfold decrypt_results
    exact alookup_map_snd (fun c => ToyFHE.decrypt st'.n c) st'.encrypted_tally k
  rw [hdec]
  cases hl : alookup st'.encrypted_tally k with
  | none =>
    have h0 : succCount log k = 0 := (hti' k).1 hl
    rw [h0]
    rfl
  | some cph =>
    obtain ⟨hm, hpos⟩ := (hti' k).2 cph hl
    have hpos' : 1 ≤ succCount log k := hpos
    have hdk : ToyFHE.decrypt st'.n cph = succCount log k := by
      unfold ToyFHE.decrypt
      rw [hn, hm]
      exact Nat.mod_eq_of_lt hk
    rw [if_neg (by omega)]
    simp [hdk]

/-- Witness for C4: the example election (A→Alice, B→Bob, C→Alice) yields
tally Alice 2, Bob 1, no entry for Carol, and a ledger of length 4. -/
theorem C4_tally_correctness_witness :
    demoElection.1.chain.chain.length = 4 ∧
    alookup (decrypt_results demoElection.1) "Alice" = some 2 ∧
    alookup (decrypt_results demoElection.1) "Bob" = some 1 ∧
    alookup (decrypt_results demoElection.1) "Carol" = none := by
  have h := C4_tally_correctness demoEnv demoPipeline demoCastReqs
    demoElection.1 demoElection.2 rfl (by decide) rfl
  refine ⟨h.1.trans (by decide), ?_, ?_, ?_⟩
  · exact (h.2 "Alice" (by decide)).trans (by decide)
  · exact (h.2 "Bob" (by decide)).trans (by decide)
  · exact (h.2 "Carol" (by decide)).trans (by decide)

/-- C10: the signature stored in a committed payload is computed over the
serialization of the payload WITHOUT the `dilithium_signature` and
`kyber_kem_ct` fields (they are inserted after signing, before mining): for
every block committed by `cast_vote`, the stored payload is the signed core
plus those two fields, signature verification (fallback: recompute and
compare) succeeds against the stripped payload, fails against the full
stored payload whenever the two serializations sign differently, and the
block hash covers the full payload, which differs from the signed message. -/
theorem C10_signature_excludes_pq_fields (env : Env) (st : Pipeline)
    (v cand : String) (rnd : CastRand) (st1 : Pipeline) (rec : CastVoteReceipt)
    (h : cast_vote env st v cand rnd = (st1, Except.ok rec)) :
    ∃ (b : Block) (core : Payload) (sig : String),
      st1.chain.chain.getLast? = some b ∧
      sig = env.Sign (env.Ser core) ∧
      b.payload = core ++
        [("dilithium_signature", Value.str sig), ("kyber_kem_ct", Value.str rnd.kem_ct)] ∧
      stripSigFields b.payload = core ∧
      dilithiumVerify env.Sign (env.Ser (stripSigFields b.payload)) sig = true ∧
      (env.Sign (env.Ser b.payload) ≠ sig →
        dilithiumVerify env.Sign (env.Ser b.payload) sig = false) ∧
      b.payload ≠ core ∧
      b.hash = env.H b.data := by
  rcases cast_vote_split env st v cand rnd with
    h1 | h1 | ⟨tid, secret, chain', b, _, _, _, hadd, hcc, h1⟩ | h1
  · rw [h1] at h
    exact absurd (Prod.mk.injEq _ _ _ _ ▸ h).2 (by simp)
  · rw [h1] at h
    exact absurd (Prod.mk.injEq _ _ _ _ ▸ h).2 (by simp)
  · rw [h1] at h
    have hst1 := (Prod.mk.injEq _ _ _ _ ▸ h).1
    obtain ⟨_, _, _, _, _, _, _, hbpay, hbhash, _, _⟩ :=
      add_block_spec env.H st.chain _ rnd.timestamp rnd.fuel chain' b hadd
    refine ⟨b,
      buildPayloadCore st.election_id v cand
        (build_nullifier env st.election_id v tid) rnd.cast_nonce
        (ToyZKP.prove_knowledge env.Chash secret rnd.r_zkp
          (castCtx st v cand (build_nullifier env st.election_id v tid) rnd)) tid,
      env.Sign (env.Ser (buildPayloadCore st.election_id v cand
        (build_nullifier env st.election_id v tid) rnd.cast_nonce
        (ToyZKP.prove_knowledge env.Chash secret rnd.r_zkp
          (castCtx st v cand (build_nullifier env st.election_id v tid) rnd)) tid)),
      ?_, rfl, ?_, ?_, ?_, ?_, ?_, ?_⟩
    · rw [← hst1]
      show chain'.chain.getLast? = some b
      rw [hcc]
      exact List.getLast?_concat _
    · rw [hbpay]
      rfl
    · rw [hbpay]
      show stripSigFields (castPayload env st v cand
        (build_nullifier env st.election_id v tid) rnd secret tid) = _
      rw [castPayload, stripSigFields, List.filter_append]
      rfl
    · rw [hbpay]
      show dilithiumVerify env.Sign (env.Ser (stripSigFields (castPayload env st v cand
        (build_nullifier env st.election_id v tid) rnd secret tid))) _ = true
      have hstrip : stripSigFields (castPayload env st v cand
          (build_nullifier env st.election_id v tid) rnd secret tid) =
          buildPayloadCore st.election_id v cand
            (build_nullifier env st.election_id v tid) rnd.cast_nonce
            (ToyZKP.prove_knowledge env.Chash secret rnd.r_zkp
              (castCtx st v cand (build_nullifier env st.election_id v tid) rnd)) tid := by
        rw [castPayload, stripSigFields, List.filter_append]
        rfl
      rw [hstrip]
      simp [dilithiumVerify]
    · intro hne
      exact beq_eq_false_iff_ne.mpr hne
    · rw [hbpay]
      intro hcontra
      have hlen := congrArg List.length hcontra
      rw [castPayload] at hlen
      simp [List.length_append] at hlen
    · exact hbhash
  · rw [h1] at h
    exact absurd (Prod.mk.injEq _ _ _ _ ▸ h).2 (by simp)

/-- Witness for C10 at the first concrete cast. -/
theorem C10_signature_excludes_pq_fields_witness :
    ∃ (b : Block) (core : Payload) (sig : String),
      demoCast1.1.chain.chain.getLast? = some b ∧
      sig = demoEnv.Sign (demoEnv.Ser core) ∧
      b.payload = core ++
        [("dilithium_signature", Value.str sig),
         ("kyber_kem_ct", Value.str (demoRand 1).kem_ct)] ∧
      stripSigFields b.payload = core ∧
      dilithiumVerify demoEnv.Sign (demoEnv.Ser (stripSigFields b.payload)) sig = true ∧
      (demoEnv.Sign (demoEnv.Ser b.payload) ≠ sig →
        dilithiumVerify demoEnv.Sign (demoEnv.Ser b.payload) sig = false) ∧
      b.payload ≠ core ∧
      b.hash = demoEnv.H b.data :=
  C10_signature_excludes_pq_fields demoEnv demoPipeline "A" "Alice" (demoRand 1)
    demoCast1.1 demoRec1 (by decide)

/-- Counterexample to C9 as stated: under a challenge-hash collision
(exhibited with the concrete degenerate challenge hash `Chash0`), a proof
produced for context "a" verifies against the different context "b" with
the same public value, so a proof is not unconditionally context-bound. -/
theorem C9_context_binding_counterexample :
    "a" ≠ "b" ∧
    ToyZKP.verify_knowledge Chash0 (ToyZKP.public_from_secret 1)
      (ToyZKP.prove_knowledge Chash0 1 1 "a") "b" = true := by
  constructor
  · decide
  · decide

/-- C9 (amended): for every challenge hash, secret in `[1, p-2]`, prover
randomness in `[1, p-2]` and contexts `ctx1`, `ctx2`, verifying the honest
`ctx1`-proof against `ctx2` succeeds exactly when the two derived
Fiat-Shamir challenges `c1`, `c2` satisfy `g^(c1·x) = g^(c2·x) (mod p)`;
hence verification fails whenever the challenges act differently on the
secret exponent, but a challenge collision between distinct contexts (which
must exist, challenges being bounded by `p - 1`) lets an old proof replay. -/
theorem C9_context_binding_amended (Chash : Nat → Nat → String → Nat)
    (x r : Nat) (ctx1 ctx2 : String)
    (hx1 : 1 ≤ x) (hx2 : x ≤ ToyZKP.p - 2) (hr1 : 1 ≤ r) (hr2 : r ≤ ToyZKP.p - 2) :
    (ToyZKP.verify_knowledge Chash (ToyZKP.public_from_secret x)
       (ToyZKP.prove_knowledge Chash x r ctx1) ctx2 = true ↔
     (ToyZKP.g : ZMod ToyZKP.p) ^
         (ToyZKP.challenge Chash (ToyZKP.g ^ r % ToyZKP.p)
           (ToyZKP.public_from_secret x) ctx1 * x) =
       (ToyZKP.g : ZMod ToyZKP.p) ^
         (ToyZKP.challenge Chash (ToyZKP.g ^ r % ToyZKP.p)
           (ToyZKP.public_from_secret x) ctx2 * x)) := by
  unfold ToyZKP.verify_knowledge ToyZKP.prove_knowledge ToyZKP.public_from_secret
  simp only [beq_iff_eq]
  set c1 := ToyZKP.challenge Chash (ToyZKP.g ^ r % ToyZKP.p)
    (ToyZKP.g ^ x % ToyZKP.p) ctx1 with hc1
  set c2 := ToyZKP.challenge Chash (ToyZKP.g ^ r % ToyZKP.p)
    (ToyZKP.g ^ x % ToyZKP.p) ctx2 with hc2
  rw [mod_p_cast_iff]
  push_cast
  rw [ZMod.natCast_mod ((ToyZKP.g ^ x % ToyZKP.p : Nat) ^ c2) ToyZKP.p]
  push_cast
  rw [ZMod.natCast_mod (ToyZKP.g ^ x) ToyZKP.p, ZMod.natCast_mod (ToyZKP.g ^ r) ToyZKP.p]
  push_cast
  rw [← pow_eq_pow_mod (r + c1 * x) g_pow_p_sub_one]
  rw [pow_add, ← pow_mul]
  have hg : (ToyZKP.g : ZMod ToyZKP.p) ≠ 0 := by decide
  rw [mul_right_inj' (pow_ne_zero r hg)]
  rw [Nat.mul_comm x c2]

/-- Witness for the amended C9: with the degenerate challenge hash the two
challenges collide, so verification against the fresh context succeeds. -/
theorem C9_context_binding_amended_witness :
    ToyZKP.verify_knowledge Chash0 (ToyZKP.public_from_secret 2)
      (ToyZKP.prove_knowledge Chash0 2 1 "a") "c" = true := by
  have h := C9_context_binding_amended Chash0 2 1 "a" "c"
    (by decide) (by decide) (by decide) (by decide)
  exact h.mpr rfl
